import Mathlib

set_option maxRecDepth 8000

/-
Verification of the classification-and-edit engine of
eslint-plugin-unicode-typography (src/src/rules/prefer-unicode.ts).
Text spans are embedded as `List Char`; the rule's `findReplacements`
function, its helper passes, and the scope-gate predicates are translated
definition by definition from the source.
-/

namespace PreferUnicode

/-- Message identifiers (`MessageIds` in src/src/rules/prefer-unicode.ts, lines 4-10). -/
inductive MessageIds where
  | preferEllipsis
  | preferEmdash
  | preferEndash
  | preferQuotes
  | preferApostrophe
  | preferPrime
deriving DecidableEq, Repr

/-- Unicode target character `…` (the CHARS table, source lines 36-46). -/
def ELLIPSIS : String := "…"

/-- Unicode target character `—`. -/
def EMDASH : String := "—"

/-- Unicode target character `–`. -/
def ENDASH : String := "–"

/-- Unicode left double quotation mark. -/
def LEFT_DOUBLE : String := "“"

/-- Unicode right double quotation mark. -/
def RIGHT_DOUBLE : String := "”"

/-- Unicode left single quotation mark. -/
def LEFT_SINGLE : String := "‘"

/-- Unicode right single quotation mark (also used for the apostrophe). -/
def RIGHT_SINGLE : String := "’"

/-- Unicode prime. -/
def PRIME : String := "′"

/-- Unicode double prime. -/
def DOUBLE_PRIME : String := "″"

/-- An edit (`interface Replacement`, source lines 111-116): message id, absolute
start/end offsets (end exclusive) and the replacement string. -/
structure Replacement where
  messageId : MessageIds
  start : Nat
  «end» : Nat
  replacement : String
deriving DecidableEq, Repr

/-- The six replacement toggles of the rule options (source lines 214-220);
the rule defaults them all to `true`. -/
structure RuleOptions where
  ellipsis : Bool
  emdash : Bool
  endash : Bool
  quotes : Bool
  apostrophes : Bool
  primes : Bool
deriving DecidableEq, Repr

/-- All six toggles enabled (the rule's default). -/
def allOn : RuleOptions := ⟨true, true, true, true, true, true⟩

/-- JS regex `\w` character class: ASCII letter, digit or underscore. -/
def isWordChar (c : Char) : Bool := c.isAlpha || c.isDigit || c == '_'

/-- JS regex `\s` character class (ECMAScript WhiteSpace and LineTerminator set). -/
def isJsWhitespace (c : Char) : Bool :=
  c == ' ' || c == '\t' || c == '\n' || c == '\r' ||
  c == Char.ofNat 0x0B || c == Char.ofNat 0x0C ||
  c == Char.ofNat 0xA0 || c == Char.ofNat 0x1680 ||
  (Char.ofNat 0x2000 ≤ c && c ≤ Char.ofNat 0x200A) ||
  c == Char.ofNat 0x2028 || c == Char.ofNat 0x2029 ||
  c == Char.ofNat 0x202F || c == Char.ofNat 0x205F ||
  c == Char.ofNat 0x3000 || c == Char.ofNat 0xFEFF

/-- JS regex class `[\s([{]` used for the opening-quote test (source line 428). -/
def isOpeningContextChar (c : Char) : Bool :=
  isJsWhitespace c || c == '(' || c == '[' || c == '\x7b'

/-- Lift a character test to an optional character; `none` models the empty-string
sentinel JS produces for a missing neighbor (`/x/.test('')` is false for these classes). -/
def testOpt (p : Char → Bool) : Option Char → Bool
  | none => false
  | some c => p c

/-- `startsWith pat l`: the pattern is an initial segment of `l`
(a literal regex match at the head position). -/
def startsWith : List Char → List Char → Bool
  | [], _ => true
  | _ :: _, [] => false
  | p :: ps, c :: cs => p == c && startsWith ps cs

/-- Non-overlapping left-to-right scan for a literal pattern, the behavior of the
`while ((match = regex.exec(text)) !== null)` loops with a `g` regex (source lines
316-326, 330-340, 344-354): `skip` counts the positions still covered by the
previous match, within which no new match may start. -/
def scanLitAux (pat : List Char) : List Char → Nat → Nat → List Nat
  | [], _, _ => []
  | _ :: rest, i, skip + 1 => scanLitAux pat rest (i + 1) skip
  | c :: rest, i, 0 =>
      if startsWith pat (c :: rest) then
        i :: scanLitAux pat rest (i + 1) (pat.length - 1)
      else
        scanLitAux pat rest (i + 1) 0

/-- Match positions of a global literal-pattern regex over the whole text. -/
def scanLit (pat text : List Char) : List Nat := scanLitAux pat text 0 0

/-- Non-overlapping scan for the JS regex `(\d)"` (source line 440); returns the
indices of the digit, i.e. `match.index`. -/
def scanDQ : List Char → Nat → List Nat
  | [], _ => []
  | [_], _ => []
  | c1 :: c2 :: rest, i =>
      if c1.isDigit && c2 == '"' then i :: scanDQ rest (i + 2)
      else scanDQ (c2 :: rest) (i + 1)

/-- `prevChar` of the single-quote loop (source line 385): `pos > 0 ? text[pos-1] : ''`. -/
def prevCharOf (text : List Char) (pos : Nat) : Option Char :=
  if pos > 0 then text[pos - 1]? else none

/-- `nextChar` of the single-quote loop (source line 386):
`pos < text.length - 1 ? text[pos+1] : ''`. -/
def nextCharOf (text : List Char) (pos : Nat) : Option Char :=
  if pos < text.length - 1 then text[pos + 1]? else none

/-- One iteration of the single-quote loop (source lines 383-436): classify the `'`
at `pos` and emit at most one candidate, honoring the toggles. -/
def singleQuoteReplacement (text : List Char) (baseOffset : Nat) (o : RuleOptions)
    (pos : Nat) : Option Replacement :=
  let prevChar := prevCharOf text pos
  let nextChar := nextCharOf text pos
  let isApostrophe := testOpt isWordChar prevChar && testOpt isWordChar nextChar
  let isYearAbbrev := (testOpt isJsWhitespace prevChar || pos == 0) && testOpt Char.isDigit nextChar
  let isPrime := testOpt Char.isDigit prevChar
  if isApostrophe then
    if o.apostrophes then
      some ⟨.preferApostrophe, baseOffset + pos, baseOffset + pos + 1, RIGHT_SINGLE⟩
    else none
  else if isYearAbbrev then
    if o.apostrophes then
      some ⟨.preferApostrophe, baseOffset + pos, baseOffset + pos + 1, RIGHT_SINGLE⟩
    else none
  else if isPrime then
    if o.primes then
      some ⟨.preferPrime, baseOffset + pos, baseOffset + pos + 1, PRIME⟩
    else none
  else if o.quotes then
    let isOpening := pos == 0 || testOpt isOpeningContextChar prevChar || prevChar == none
    some ⟨.preferQuotes, baseOffset + pos, baseOffset + pos + 1,
      if isOpening then LEFT_SINGLE else RIGHT_SINGLE⟩
  else none

/-- The double-quote pairing pass (source lines 359-377): the i-th occurrence of `"`
(0-based) is opening when `i % 2 == 0`, closing otherwise. -/
def doubleQuoteReplacements (text : List Char) (baseOffset : Nat) : List Replacement :=
  (scanLit ['"'] text).enum.map fun p =>
    ⟨.preferQuotes, baseOffset + p.2, baseOffset + p.2 + 1,
      if p.1 % 2 == 0 then LEFT_DOUBLE else RIGHT_DOUBLE⟩

/-- The double-prime in-place override for one `(\d)"` match (source lines 443-455):
`findIndex` of the first entry with the given start and messageId `preferQuotes`,
replaced by a double-prime edit; the list is unchanged when no entry matches. -/
def replaceQuoteAt (s : Nat) : List Replacement → List Replacement
  | [] => []
  | r :: rest =>
      if r.start == s && r.messageId == .preferQuotes then
        ⟨.preferPrime, s, s + 1, DOUBLE_PRIME⟩ :: rest
      else r :: replaceQuoteAt s rest

/-- The candidate list of `findReplacements` in source push order (lines 311-457),
before sorting and overlap removal. -/
def findReplacementsCandidates (text : List Char) (baseOffset : Nat) (o : RuleOptions) :
    List Replacement :=
  let ellipsisReps := if o.ellipsis then
      (scanLit ['.', '.', '.'] text).map fun i =>
        ⟨.preferEllipsis, baseOffset + i, baseOffset + i + 3, ELLIPSIS⟩
    else []
  let emdashReps := if o.emdash then
      (scanLit ['-', '-'] text).map fun i =>
        ⟨.preferEmdash, baseOffset + i, baseOffset + i + 2, EMDASH⟩
    else []
  let endashReps := if o.endash then
      (scanLit [' ', '-', ' '] text).map fun i =>
        ⟨.preferEndash, baseOffset + i, baseOffset + i + 3, ENDASH⟩
    else []
  let dashReps := ellipsisReps ++ emdashReps ++ endashReps
  if o.quotes || o.apostrophes || o.primes then
    let withDouble := dashReps ++
      (if o.quotes then doubleQuoteReplacements text baseOffset else [])
    let withSingle := withDouble ++
      (scanLit ['\''] text).filterMap (singleQuoteReplacement text baseOffset o)
    if o.primes then
      (scanDQ text 0).foldl (fun rs idx => replaceQuoteAt (baseOffset + idx + 1) rs) withSingle
    else withSingle
  else dashReps

/-- Stable ascending sort by start offset, `replacements.sort((a, b) => a.start - b.start)`
(source line 461). -/
def sortByStart (l : List Replacement) : List Replacement :=
  List.insertionSort (fun a b => a.start ≤ b.start) l

/-- The overlap-removal sweep (source lines 463-471): keep an edit only when its
start is `>=` the end of the last kept edit; `lastEnd` starts at `-1`. -/
def filterOverlapping : List Replacement → Int → List Replacement
  | [], _ => []
  | r :: rest, lastEnd =>
      if (r.start : Int) ≥ lastEnd then r :: filterOverlapping rest (r.«end» : Int)
      else filterOverlapping rest lastEnd

/-- `findReplacements` (source lines 311-474). -/
def findReplacements (text : List Char) (baseOffset : Nat) (o : RuleOptions) :
    List Replacement :=
  filterOverlapping (sortByStart (findReplacementsCandidates text baseOffset o)) (-1)

/-- The single-quote classification outcomes described for the Character Classifier:
apostrophe, year-abbreviation apostrophe, prime, or quote (opening/closing). -/
inductive SingleQuoteKind where
  | apostrophe
  | yearAbbrev
  | prime
  | quote (opening : Bool)
deriving DecidableEq, Repr

/-- The classification rule as the specification states it, a function of the two
neighbors only (`none` = missing neighbor / string boundary), first match wins:
word-word is an apostrophe; whitespace-or-start before a digit is a year
abbreviation; after a digit is a prime; otherwise a quote, opening iff the
previous character is boundary, whitespace or one of `(` `[` `{`. -/
def claimClassify (prev next : Option Char) : SingleQuoteKind :=
  if testOpt isWordChar prev && testOpt isWordChar next then .apostrophe
  else if (testOpt isJsWhitespace prev || prev.isNone) && testOpt Char.isDigit next then .yearAbbrev
  else if testOpt Char.isDigit prev then .prime
  else .quote (prev.isNone || testOpt isOpeningContextChar prev)

/-- The edit a single-quote classification produces at a position (source lines 397-435). -/
def editForKind (k : SingleQuoteKind) (baseOffset pos : Nat) : Replacement :=
  match k with
  | .apostrophe => ⟨.preferApostrophe, baseOffset + pos, baseOffset + pos + 1, RIGHT_SINGLE⟩
  | .yearAbbrev => ⟨.preferApostrophe, baseOffset + pos, baseOffset + pos + 1, RIGHT_SINGLE⟩
  | .prime => ⟨.preferPrime, baseOffset + pos, baseOffset + pos + 1, PRIME⟩
  | .quote opening =>
      ⟨.preferQuotes, baseOffset + pos, baseOffset + pos + 1,
        if opening then LEFT_SINGLE else RIGHT_SINGLE⟩

/-- The double-prime edit the override writes in place (source lines 449-454). -/
def dprimeAt (s : Nat) : Replacement := ⟨.preferPrime, s, s + 1, DOUBLE_PRIME⟩

/-- The predicate `findIndex` uses in the double-prime pass (source lines 444-447). -/
def qAt (s : Nat) (r : Replacement) : Bool :=
  r.start == s && r.messageId == .preferQuotes

/-- Only the emdash toggle enabled. -/
def emdashOnly : RuleOptions := ⟨false, true, false, false, false, false⟩

/-- Only the endash toggle enabled. -/
def endashOnly : RuleOptions := ⟨false, false, true, false, false, false⟩

/-- All toggles on except primes. -/
def noPrimes : RuleOptions := ⟨true, true, true, true, true, false⟩

/-- All toggles on except emdash. -/
def noEmdash : RuleOptions := ⟨true, false, true, true, true, true⟩

/-- All toggles on except quotes. -/
def noQuotes : RuleOptions := ⟨true, true, true, false, true, true⟩

/-- The Unicode target characters of the replacements: ellipsis, em dash, en dash,
curly double and single quotes, curly apostrophe (same character as the closing
single quote), prime, double prime. -/
def targetChars : List Char :=
  ['…', '—', '–', '“', '”', '‘', '’', '′', '″']

/-
Scope-gate data model: expressions as far as the callee/tag name resolution of
getCalleeName/getTagName observes them, and the ancestor chain of a literal.
-/

/-- An expression as seen by the name-resolution walks (source lines 68-109):
a plain identifier, a member access whose property is an identifier
(`some name`) or not (`none`, e.g. a computed index), or any other expression. -/
inductive JsExpr where
  | identifier (name : String)
  | member (object : JsExpr) (property : Option String)
  | otherExpr
deriving DecidableEq, Repr

/-- The member-chain walk of getCalleeName/getTagName (source lines 73-84, 95-106):
property identifiers are collected outermost-last; a base identifier is prepended,
any other base contributes nothing. -/
def memberChainParts : JsExpr → List String
  | .identifier n => [n]
  | .member obj (some p) => memberChainParts obj ++ [p]
  | .member obj none => memberChainParts obj
  | .otherExpr => []

/-- getCalleeName (source lines 68-87): an identifier's name, a member chain's
parts joined with `.`, and `null` for any other callee. -/
def getCalleeName : JsExpr → Option String
  | .identifier n => some n
  | .member obj prop => some (String.intercalate "." (memberChainParts (.member obj prop)))
  | .otherExpr => none

/-- getTagName (source lines 90-109): like getCalleeName but returns the empty
string, not null, for other tag expressions. -/
def getTagName : JsExpr → String
  | .identifier n => n
  | .member obj prop => String.intercalate "." (memberChainParts (.member obj prop))
  | .otherExpr => ""

/-- An ancestor of a string literal as seen by isInsideAllowedFunction
(source lines 272-284): a call expression with its callee, or any other node. -/
inductive AncestorNode where
  | callExpression (callee : JsExpr)
  | otherNode
deriving DecidableEq, Repr

/-- The trinary option `boolean | { onlyFunctions: string[] }` (source line 13). -/
inductive CheckStringLiteralsOption where
  | off
  | on
  | restricted (onlyFunctions : List String)
deriving DecidableEq, Repr

/-- isInsideAllowedFunction (source lines 272-284): walk outward through the
ancestors; at each call expression, succeed when the callee name is truthy
(non-null and nonempty, the JS `calleeName && ...` test) and in the allowlist. -/
def isInsideAllowedFunction (ancestors : List AncestorNode) (allowedFunctions : List String) :
    Bool :=
  match ancestors with
  | [] => false
  | .callExpression callee :: rest =>
      (match getCalleeName callee with
       | some nm => !(nm == "") && allowedFunctions.contains nm
       | none => false) ||
      isInsideAllowedFunction rest allowedFunctions
  | .otherNode :: rest => isInsideAllowedFunction rest allowedFunctions

/-- shouldCheckStringLiteral (source lines 262-269). -/
def shouldCheckStringLiteral (opt : CheckStringLiteralsOption)
    (ancestors : List AncestorNode) : Bool :=
  match opt with
  | .off => false
  | .on => true
  | .restricted fns => isInsideAllowedFunction ancestors fns

/-- The Literal visitor composed with the scanner (source lines 507-521): when the
gate passes, the literal's value is scanned at `node.range[0] + 1` (skipping the
opening quote); otherwise no edits are produced. -/
def processStringLiteral (opt : CheckStringLiteralsOption) (ancestors : List AncestorNode)
    (text : List Char) (range0 : Nat) (o : RuleOptions) : List Replacement :=
  if shouldCheckStringLiteral opt ancestors then findReplacements text (range0 + 1) o
  else []

/-- The trinary option `boolean | { tags?: string[]; untagged?: boolean }`
(source line 14); absent fields are `none`. -/
inductive CheckTemplateLiteralsOption where
  | off
  | on
  | restricted (tags : Option (List String)) (untagged : Option Bool)
deriving DecidableEq, Repr

/-- Where a TemplateElement sits, as shouldCheckTemplateLiteral inspects its
parent and grandparent (source lines 292-307). -/
inductive TemplateCtx where
  | noParent
  | parentNotTemplateLiteral
  | noGrandparent
  | taggedTemplate (tag : JsExpr)
  | untaggedTemplate
deriving DecidableEq, Repr

/-- shouldCheckTemplateLiteral (source lines 287-308). -/
def shouldCheckTemplateLiteral (opt : CheckTemplateLiteralsOption) (ctx : TemplateCtx) : Bool :=
  match opt with
  | .off => false
  | .on => true
  | .restricted tags untagged =>
      match ctx with
      | .noParent => false
      | .parentNotTemplateLiteral => false
      | .noGrandparent => false
      | .taggedTemplate tag =>
          (match tags with
           | some ts => ts.contains (getTagName tag)
           | none => false)
      | .untaggedTemplate => untagged.getD false

/-
Formal renderings of claims that are settled by refutation.
-/

/-- Claim C5 as stated: with emdash enabled, exactly the runs of exactly two
hyphens produce an emdash edit. -/
def emdashClaimC5 : Prop :=
  ∀ (t : List Char) (b : Nat) (o : RuleOptions), o.emdash = true →
    ∀ i, (∃ r, r ∈ findReplacements t b o ∧ r.messageId = .preferEmdash ∧ r.start = b + i) ↔
      (t[i]? = some '-' ∧ t[i + 1]? = some '-' ∧ t[i + 2]? ≠ some '-' ∧
        (i = 0 ∨ t[i - 1]? ≠ some '-'))

/-- Claim C6 as stated: with endash enabled, every occurrence of the literal
substring space-hyphen-space produces one en-dash edit covering all three characters. -/
def endashClaimC6 : Prop :=
  ∀ (t : List Char) (b : Nat) (o : RuleOptions), o.endash = true →
    ∀ i, (∃ r, r ∈ findReplacements t b o ∧ r = ⟨.preferEndash, b + i, b + i + 3, ENDASH⟩) ↔
      (t[i]? = some ' ' ∧ t[i + 1]? = some '-' ∧ t[i + 2]? = some ' ')

/-- Claim C7's general sentence as stated: under `Restricted(fns)` a string literal
is scanned iff some enclosing call expression has a callee name contained in `fns`,
the callee name being the one getCalleeName resolves (plain identifier, or member
chain property names joined with `.`). -/
def stringLiteralClaimC7 : Prop :=
  ∀ (fns : List String) (anc : List AncestorNode),
    shouldCheckStringLiteral (.restricted fns) anc = true ↔
      ∃ cal, AncestorNode.callExpression cal ∈ anc ∧
        ∃ nm, getCalleeName cal = some nm ∧ nm ∈ fns

end PreferUnicode

namespace PreferUnicode

theorem startsWith_one {a : Char} {m : List Char} :
    startsWith [a] m = true ↔ m[0]? = some a := by
  cases m with
  | nil => simp [startsWith]
  | cons c cs => simp [startsWith]; exact eq_comm

theorem startsWith_two {a b : Char} {m : List Char} :
    startsWith [a, b] m = true ↔ m[0]? = some a ∧ m[1]? = some b := by
  match m with
  | [] => simp [startsWith]
  | [c] => simp [startsWith]
  | c :: d :: cs => simp [startsWith]; exact and_congr eq_comm eq_comm

theorem startsWith_three {a b c : Char} {m : List Char} :
    startsWith [a, b, c] m = true ↔ m[0]? = some a ∧ m[1]? = some b ∧ m[2]? = some c := by
  match m with
  | [] => simp [startsWith]
  | [d] => simp [startsWith]
  | [d, e] => simp [startsWith]
  | d :: e :: f :: cs =>
    simp [startsWith, and_assoc]
    exact and_congr eq_comm (and_congr eq_comm eq_comm)

theorem scanLitAux_sound (pat : List Char) :
    ∀ (l : List Char) (i skip j : Nat), j ∈ scanLitAux pat l i skip →
      i + skip ≤ j ∧ startsWith pat (l.drop (j - i)) = true := by
  intro l
  induction l with
  | nil => intro i skip j hj; simp [scanLitAux] at hj
  | cons c rest ih =>
    intro i skip j hj
    match skip with
    | sk + 1 =>
      simp only [scanLitAux] at hj
      obtain ⟨h1, h2⟩ := ih (i + 1) sk j hj
      refine ⟨by omega, ?_⟩
      have hji : j - i = (j - (i + 1)) + 1 := by omega
      rw [hji, List.drop_succ_cons]
      exact h2
    | 0 =>
      simp only [scanLitAux] at hj
      by_cases hs : startsWith pat (c :: rest) = true
      · rw [if_pos hs] at hj
        rcases List.mem_cons.mp hj with rfl | hj'
        · exact ⟨by omega, by simpa [Nat.sub_self] using hs⟩
        · obtain ⟨h1, h2⟩ := ih (i + 1) (pat.length - 1) j hj'
          refine ⟨by omega, ?_⟩
          have hji : j - i = (j - (i + 1)) + 1 := by omega
          rw [hji, List.drop_succ_cons]
          exact h2
      · rw [if_neg hs] at hj
        obtain ⟨h1, h2⟩ := ih (i + 1) 0 j hj
        refine ⟨by omega, ?_⟩
        have hji : j - i = (j - (i + 1)) + 1 := by omega
        rw [hji, List.drop_succ_cons]
        exact h2

theorem scanLit_sound {pat l : List Char} {j : Nat} (h : j ∈ scanLit pat l) :
    startsWith pat (l.drop j) = true := by
  have := scanLitAux_sound pat l 0 0 j h
  simpa using this.2

theorem scanLitAux_one_complete (c : Char) :
    ∀ (l : List Char) (i j : Nat), i ≤ j → l[j - i]? = some c →
      j ∈ scanLitAux [c] l i 0 := by
  intro l
  induction l with
  | nil => intro i j hij hj; simp at hj
  | cons d rest ih =>
    intro i j hij hj
    by_cases hji : j = i
    · subst hji
      rw [Nat.sub_self] at hj
      simp only [List.getElem?_cons_zero, Option.some.injEq] at hj
      simp [scanLitAux, startsWith, hj]
    · have hij1 : i + 1 ≤ j := by omega
      have hj' : rest[j - (i + 1)]? = some c := by
        have heq : j - i = (j - (i + 1)) + 1 := by omega
        rw [heq] at hj
        simpa using hj
      have hrec := ih (i + 1) j hij1 hj'
      simp only [scanLitAux]
      by_cases hs : startsWith [c] (d :: rest) = true
      · rw [if_pos hs]
        exact List.mem_cons_of_mem _ (by simpa using hrec)
      · rw [if_neg hs]
        simpa using hrec

theorem scanLit_mem_one {c : Char} {l : List Char} {j : Nat} :
    j ∈ scanLit [c] l ↔ l[j]? = some c := by
  constructor
  · intro h
    have hs := scanLit_sound h
    rw [startsWith_one] at hs
    simpa [List.getElem?_drop] using hs
  · intro h
    exact scanLitAux_one_complete c l 0 j (Nat.zero_le _) (by simpa using h)

theorem scanLit_mem_getElem2 {a b : Char} {l : List Char} {j : Nat}
    (h : j ∈ scanLit [a, b] l) : l[j]? = some a ∧ l[j + 1]? = some b := by
  have hs := scanLit_sound h
  rw [startsWith_two] at hs
  simpa [List.getElem?_drop] using hs

theorem scanLit_mem_getElem3 {a b c : Char} {l : List Char} {j : Nat}
    (h : j ∈ scanLit [a, b, c] l) :
    l[j]? = some a ∧ l[j + 1]? = some b ∧ l[j + 2]? = some c := by
  have hs := scanLit_sound h
  rw [startsWith_three] at hs
  simpa [List.getElem?_drop] using hs

theorem scanLitAux_pairwise (pat : List Char) (hpat : pat ≠ []) :
    ∀ (l : List Char) (i skip : Nat),
      (∀ j ∈ scanLitAux pat l i skip, i + skip ≤ j) ∧
      List.Pairwise (· < ·) (scanLitAux pat l i skip) := by
  intro l
  induction l with
  | nil => intro i skip; simp [scanLitAux]
  | cons c rest ih =>
    intro i skip
    match skip with
    | sk + 1 =>
      simp only [scanLitAux]
      obtain ⟨hlb, hpw⟩ := ih (i + 1) sk
      exact ⟨fun j hj => by have := hlb j hj; omega, hpw⟩
    | 0 =>
      simp only [scanLitAux]
      by_cases hs : startsWith pat (c :: rest) = true
      · rw [if_pos hs]
        obtain ⟨hlb, hpw⟩ := ih (i + 1) (pat.length - 1)
        have hlen : 1 ≤ pat.length := by
          cases pat with
          | nil => exact absurd rfl hpat
          | cons _ _ => simp
        constructor
        · intro j hj
          rcases List.mem_cons.mp hj with rfl | hj'
          · omega
          · have := hlb j hj'; omega
        · refine List.pairwise_cons.mpr ⟨?_, hpw⟩
          intro j hj
          have := hlb j hj
          omega
      · rw [if_neg hs]
        obtain ⟨hlb, hpw⟩ := ih (i + 1) 0
        exact ⟨fun j hj => by have := hlb j hj; omega, hpw⟩

theorem scanLit_pairwise {pat : List Char} (hpat : pat ≠ []) (l : List Char) :
    List.Pairwise (· < ·) (scanLit pat l) :=
  (scanLitAux_pairwise pat hpat l 0 0).2

theorem scanDQ_sound : ∀ (l : List Char) (i j : Nat), j ∈ scanDQ l i →
    i ≤ j ∧ (∃ d, l[j - i]? = some d ∧ d.isDigit = true) ∧ l[j - i + 1]? = some '"'
  | [], _, _ => by intro hj; simp [scanDQ] at hj
  | [c], _, _ => by intro hj; simp [scanDQ] at hj
  | c1 :: c2 :: rest, i, j => by
    intro hj
    simp only [scanDQ] at hj
    by_cases hc : (c1.isDigit && c2 == '"') = true
    · rw [if_pos hc] at hj
      simp only [Bool.and_eq_true, beq_iff_eq] at hc
      rcases List.mem_cons.mp hj with rfl | hj'
      · refine ⟨le_refl _, ⟨c1, ?_, hc.1⟩, ?_⟩
        · simp [Nat.sub_self]
        · rw [Nat.sub_self]
          simp [hc.2]
      · obtain ⟨h1, ⟨d, hd1, hd2⟩, h2⟩ := scanDQ_sound rest (i + 2) j hj'
        refine ⟨by omega, ⟨d, ?_, hd2⟩, ?_⟩
        · have heq : j - i = ((j - (i + 2)) + 1) + 1 := by omega
          rw [heq]
          simpa using hd1
        · have heq : j - i + 1 = ((j - (i + 2) + 1) + 1) + 1 := by omega
          rw [heq]
          simpa using h2
    · rw [if_neg hc] at hj
      obtain ⟨h1, ⟨d, hd1, hd2⟩, h2⟩ := scanDQ_sound (c2 :: rest) (i + 1) j hj
      refine ⟨by omega, ⟨d, ?_, hd2⟩, ?_⟩
      · have heq : j - i = (j - (i + 1)) + 1 := by omega
        rw [heq]
        simpa using hd1
      · have heq : j - i + 1 = (j - (i + 1) + 1) + 1 := by omega
        rw [heq]
        simpa using h2

theorem scanDQ_complete : ∀ (l : List Char) (i j : Nat), i ≤ j →
    (∃ d, l[j - i]? = some d ∧ d.isDigit = true) → l[j - i + 1]? = some '"' →
    j ∈ scanDQ l i
  | [], _, _ => by
    intro _ hd _
    obtain ⟨d, hd, _⟩ := hd
    simp at hd
  | [c], i, j => by
    intro hij hd hq
    rw [List.getElem?_eq_none (by simp)] at hq
    exact absurd hq (by simp)
  | c1 :: c2 :: rest, i, j => by
    intro hij hd hq
    simp only [scanDQ]
    by_cases hji : j = i
    · subst hji
      obtain ⟨d, hd1, hd2⟩ := hd
      rw [Nat.sub_self] at hd1 hq
      simp only [List.getElem?_cons_zero, Option.some.injEq] at hd1
      simp only [Nat.zero_add, List.getElem?_cons_succ, List.getElem?_cons_zero,
        Option.some.injEq] at hq
      have hcond : (c1.isDigit && c2 == '"') = true := by
        rw [← hd1] at hd2
        simp [hd2, hq]
      rw [if_pos hcond]
      exact List.mem_cons_self _ _
    · have hij1 : i + 1 ≤ j := by omega
      by_cases hcond : (c1.isDigit && c2 == '"') = true
      · rw [if_pos hcond]
        simp only [Bool.and_eq_true, beq_iff_eq] at hcond
        have hji2 : i + 2 ≤ j := by
          by_contra hlt
          have hj1 : j = i + 1 := by omega
          subst hj1
          obtain ⟨d, hd1, hd2⟩ := hd
          have heq : i + 1 - i = 1 := by omega
          rw [heq] at hd1
          simp only [List.getElem?_cons_succ, List.getElem?_cons_zero,
            Option.some.injEq] at hd1
          rw [← hd1, hcond.2] at hd2
          exact absurd hd2 (by decide)
        refine List.mem_cons_of_mem _ (scanDQ_complete rest (i + 2) j hji2 ?_ ?_)
        · obtain ⟨d, hd1, hd2⟩ := hd
          refine ⟨d, ?_, hd2⟩
          have heq : j - i = ((j - (i + 2)) + 1) + 1 := by omega
          rw [heq] at hd1
          simpa using hd1
        · have heq : j - i + 1 = ((j - (i + 2) + 1) + 1) + 1 := by omega
          rw [heq] at hq
          simpa using hq
      · rw [if_neg hcond]
        refine scanDQ_complete (c2 :: rest) (i + 1) j hij1 ?_ ?_
        · obtain ⟨d, hd1, hd2⟩ := hd
          refine ⟨d, ?_, hd2⟩
          have heq : j - i = (j - (i + 1)) + 1 := by omega
          rw [heq] at hd1
          simpa using hd1
        · have heq : j - i + 1 = (j - (i + 1) + 1) + 1 := by omega
          rw [heq] at hq
          simpa using hq

theorem scanDQ_pairwise : ∀ (l : List Char) (i : Nat),
    (∀ j ∈ scanDQ l i, i ≤ j) ∧ List.Pairwise (· < ·) (scanDQ l i)
  | [], i => by simp [scanDQ]
  | [c], i => by simp [scanDQ]
  | c1 :: c2 :: rest, i => by
    simp only [scanDQ]
    by_cases hc : (c1.isDigit && c2 == '"') = true
    · rw [if_pos hc]
      obtain ⟨hlb, hpw⟩ := scanDQ_pairwise rest (i + 2)
      constructor
      · intro j hj
        rcases List.mem_cons.mp hj with rfl | hj'
        · omega
        · have := hlb j hj'; omega
      · refine List.pairwise_cons.mpr ⟨?_, hpw⟩
        intro j hj
        have := hlb j hj
        omega
    · rw [if_neg hc]
      obtain ⟨hlb, hpw⟩ := scanDQ_pairwise (c2 :: rest) (i + 1)
      exact ⟨fun j hj => by have := hlb j hj; omega, hpw⟩

end PreferUnicode

namespace PreferUnicode

theorem replaceQuoteAt_cons (s : Nat) (r : Replacement) (rest : List Replacement) :
    replaceQuoteAt s (r :: rest) =
      if qAt s r then dprimeAt s :: rest else r :: replaceQuoteAt s rest := rfl

theorem replaceQuoteAt_mem_of {s : Nat} {r : Replacement} {l : List Replacement}
    (h : r ∈ l) (hr : qAt s r = false) : r ∈ replaceQuoteAt s l := by
  induction l with
  | nil => simp at h
  | cons x xs ih =>
    rw [replaceQuoteAt_cons]
    by_cases hx : qAt s x = true
    · rw [if_pos hx]
      rcases List.mem_cons.mp h with rfl | h'
      · rw [hx] at hr; exact absurd hr (by simp)
      · exact List.mem_cons_of_mem _ h'
    · rw [if_neg hx]
      rcases List.mem_cons.mp h with rfl | h'
      · exact List.mem_cons_self _ _
      · exact List.mem_cons_of_mem _ (ih h')

theorem mem_replaceQuoteAt {s : Nat} {r : Replacement} {l : List Replacement}
    (h : r ∈ replaceQuoteAt s l) : r ∈ l ∨ r = dprimeAt s := by
  induction l with
  | nil => simp [replaceQuoteAt] at h
  | cons x xs ih =>
    rw [replaceQuoteAt_cons] at h
    by_cases hx : qAt s x = true
    · rw [if_pos hx] at h
      rcases List.mem_cons.mp h with rfl | h'
      · exact Or.inr rfl
      · exact Or.inl (List.mem_cons_of_mem _ h')
    · rw [if_neg hx] at h
      rcases List.mem_cons.mp h with rfl | h'
      · exact Or.inl (List.mem_cons_self _ _)
      · rcases ih h' with h'' | h''
        · exact Or.inl (List.mem_cons_of_mem _ h'')
        · exact Or.inr h''

theorem countP_replaceQuoteAt_ne {s s' : Nat} (hss : s ≠ s') (l : List Replacement) :
    (replaceQuoteAt s' l).countP (qAt s) = l.countP (qAt s) := by
  induction l with
  | nil => simp [replaceQuoteAt]
  | cons x xs ih =>
    rw [replaceQuoteAt_cons]
    by_cases hx : qAt s' x = true
    · rw [if_pos hx]
      have hxs : x.start = s' := by
        simp only [qAt, Bool.and_eq_true, beq_iff_eq] at hx
        exact hx.1
      have h1 : qAt s (dprimeAt s') = false := by simp [qAt, dprimeAt]
      have h2 : qAt s x = false := by
        simp only [qAt, hxs]
        simp [Ne.symm hss]
      simp [List.countP_cons, h1, h2]
    · rw [if_neg hx]
      simp [List.countP_cons, ih]

theorem replaceQuoteAt_of_forall {s : Nat} {l : List Replacement}
    (h : ∀ a ∈ l, ¬ qAt s a = true) : replaceQuoteAt s l = l := by
  induction l with
  | nil => rfl
  | cons x xs ih =>
    rw [replaceQuoteAt_cons, if_neg (h x (List.mem_cons_self _ _)),
      ih (fun a ha => h a (List.mem_cons_of_mem _ ha))]

theorem replaceQuoteAt_hit {s : Nat} {l : List Replacement}
    (h : l.countP (qAt s) = 1) :
    (replaceQuoteAt s l).countP (qAt s) = 0 ∧ dprimeAt s ∈ replaceQuoteAt s l := by
  induction l with
  | nil => simp at h
  | cons x xs ih =>
    rw [List.countP_cons] at h
    by_cases hx : qAt s x = true
    · rw [replaceQuoteAt_cons, if_pos hx]
      have hxs : xs.countP (qAt s) = 0 := by
        rw [if_pos hx] at h; omega
      have h1 : qAt s (dprimeAt s) = false := by simp [qAt, dprimeAt]
      exact ⟨by simp [List.countP_cons, h1, hxs], List.mem_cons_self _ _⟩
    · have hx' : qAt s x = false := by simpa using hx
      have hxs : xs.countP (qAt s) = 1 := by
        rw [if_neg hx] at h; omega
      obtain ⟨ih1, ih2⟩ := ih hxs
      rw [replaceQuoteAt_cons, if_neg hx]
      exact ⟨by simp [List.countP_cons, hx', ih1], List.mem_cons_of_mem _ ih2⟩

theorem foldDP_mem {b : Nat} {r : Replacement}
    (hmid : (r.messageId == MessageIds.preferQuotes) = false) :
    ∀ (Q : List Nat) (l : List Replacement), r ∈ l →
      r ∈ Q.foldl (fun rs idx => replaceQuoteAt (b + idx + 1) rs) l
  | [], _, h => h
  | q :: Q, l, h =>
      foldDP_mem hmid Q _ (replaceQuoteAt_mem_of h (by simp [qAt, hmid]))

theorem foldDP_countP_ne {b s : Nat} :
    ∀ (Q : List Nat), (∀ idx ∈ Q, b + idx + 1 ≠ s) → ∀ (l : List Replacement),
      (Q.foldl (fun rs idx => replaceQuoteAt (b + idx + 1) rs) l).countP (qAt s) =
        l.countP (qAt s)
  | [], _, _ => rfl
  | q :: Q, h, l => by
    rw [List.foldl_cons,
      foldDP_countP_ne Q (fun i hi => h i (List.mem_cons_of_mem _ hi)) _]
    exact countP_replaceQuoteAt_ne (fun he => h q (List.mem_cons_self _ _) he.symm) l

theorem mem_foldDP {b : Nat} {r : Replacement} :
    ∀ (Q : List Nat) (l : List Replacement),
      r ∈ Q.foldl (fun rs idx => replaceQuoteAt (b + idx + 1) rs) l →
      r ∈ l ∨ ∃ idx ∈ Q, r = dprimeAt (b + idx + 1)
  | [], _, h => Or.inl h
  | q :: Q, l, h => by
    rcases mem_foldDP Q _ h with h' | h'
    · rcases mem_replaceQuoteAt h' with h'' | h''
      · exact Or.inl h''
      · exact Or.inr ⟨q, List.mem_cons_self _ _, h''⟩
    · obtain ⟨idx, hidx, hr⟩ := h'
      exact Or.inr ⟨idx, List.mem_cons_of_mem _ hidx, hr⟩

theorem foldDP_hit {b : Nat} {Q : List Nat} {p : Nat} (hmem : p ∈ Q)
    (hpw : List.Pairwise (· < ·) Q) {l : List Replacement}
    (hcount : l.countP (qAt (b + p + 1)) = 1) :
    (Q.foldl (fun rs idx => replaceQuoteAt (b + idx + 1) rs) l).countP (qAt (b + p + 1)) = 0 ∧
      dprimeAt (b + p + 1) ∈ Q.foldl (fun rs idx => replaceQuoteAt (b + idx + 1) rs) l := by
  obtain ⟨A, B, rfl⟩ := List.append_of_mem hmem
  rw [List.foldl_append, List.foldl_cons]
  rw [List.pairwise_append] at hpw
  obtain ⟨_, pwB', hAB⟩ := hpw
  have hA_ne : ∀ idx ∈ A, b + idx + 1 ≠ b + p + 1 := by
    intro idx hidx
    have : idx < p := hAB idx hidx p (List.mem_cons_self _ _)
    omega
  have hcount' :
      (A.foldl (fun rs idx => replaceQuoteAt (b + idx + 1) rs) l).countP (qAt (b + p + 1)) = 1 := by
    rw [foldDP_countP_ne A hA_ne l]; exact hcount
  obtain ⟨hz, hmem'⟩ := replaceQuoteAt_hit hcount'
  have hB_ne : ∀ idx ∈ B, b + idx + 1 ≠ b + p + 1 := by
    intro idx hidx
    have : p < idx := (List.pairwise_cons.mp pwB').1 idx hidx
    omega
  refine ⟨?_, ?_⟩
  · rw [foldDP_countP_ne B hB_ne _]; exact hz
  · exact foldDP_mem (by simp [dprimeAt]) B _ hmem'

theorem replaceQuoteAt_startLt {s : Nat} {l : List Replacement}
    (h : ∀ r ∈ l, r.start < r.«end») : ∀ r ∈ replaceQuoteAt s l, r.start < r.«end» := by
  intro r hr
  rcases mem_replaceQuoteAt hr with h' | h'
  · exact h r h'
  · subst h'
    simp [dprimeAt]

theorem foldDP_startLt {b : Nat} :
    ∀ (Q : List Nat) (l : List Replacement), (∀ r ∈ l, r.start < r.«end») →
      ∀ r ∈ Q.foldl (fun rs idx => replaceQuoteAt (b + idx + 1) rs) l, r.start < r.«end»
  | [], _, h => h
  | _ :: Q, _, h => foldDP_startLt Q _ (replaceQuoteAt_startLt h)

theorem replaceQuoteAt_start_ne {s x : Nat} {l : List Replacement}
    (h : ∀ r ∈ l, r.start ≠ x) : ∀ r ∈ replaceQuoteAt s l, r.start ≠ x := by
  by_cases hsx : s = x
  · subst hsx
    have hz : replaceQuoteAt s l = l := by
      apply replaceQuoteAt_of_forall
      intro a ha hq
      simp only [qAt, Bool.and_eq_true, beq_iff_eq] at hq
      exact (h a ha) hq.1
    rw [hz]; exact h
  · intro r hr
    rcases mem_replaceQuoteAt hr with h' | h'
    · exact h r h'
    · subst h'
      simpa [dprimeAt] using hsx

theorem foldDP_start_ne {b x : Nat} :
    ∀ (Q : List Nat) (l : List Replacement), (∀ r ∈ l, r.start ≠ x) →
      ∀ r ∈ Q.foldl (fun rs idx => replaceQuoteAt (b + idx + 1) rs) l, r.start ≠ x
  | [], _, h => h
  | _ :: Q, _, h => foldDP_start_ne Q _ (replaceQuoteAt_start_ne h)

end PreferUnicode

namespace PreferUnicode

theorem singleQuoteReplacement_some {t : List Char} {b pos : Nat} {o : RuleOptions}
    {r : Replacement} (h : singleQuoteReplacement t b o pos = some r) :
    r.start = b + pos ∧ r.«end» = b + pos + 1 ∧
      (r.messageId = .preferApostrophe ∨ r.messageId = .preferPrime ∨
        r.messageId = .preferQuotes) := by
  simp only [singleQuoteReplacement] at h
  split_ifs at h <;>
    (rw [Option.some.injEq] at h; subst h; exact ⟨rfl, rfl, by simp⟩)

theorem mem_ite_nil {α : Type} {c : Bool} {L : List α} {x : α}
    (h : x ∈ (if c = true then L else [])) : c = true ∧ x ∈ L := by
  by_cases hc : c = true
  · rw [if_pos hc] at h; exact ⟨hc, h⟩
  · rw [if_neg hc] at h; simp at h

theorem mem_doubleQuoteReplacements {t : List Char} {b : Nat} {r : Replacement}
    (h : r ∈ doubleQuoteReplacements t b) :
    ∃ n pos, (scanLit ['"'] t)[n]? = some pos ∧
      r = ⟨.preferQuotes, b + pos, b + pos + 1,
        if n % 2 == 0 then LEFT_DOUBLE else RIGHT_DOUBLE⟩ := by
  unfold doubleQuoteReplacements at h
  rcases List.mem_map.mp h with ⟨⟨n, pos⟩, hmem, rfl⟩
  obtain ⟨hlt, hx⟩ := List.mem_enum hmem
  refine ⟨n, pos, ?_, rfl⟩
  rw [List.getElem?_eq_getElem hlt, hx]

theorem mem_candidates_cases {t : List Char} {b : Nat} {o : RuleOptions} {r : Replacement}
    (h : r ∈ findReplacementsCandidates t b o) :
    (o.ellipsis = true ∧ ∃ i, i ∈ scanLit ['.', '.', '.'] t ∧
        r = ⟨.preferEllipsis, b + i, b + i + 3, ELLIPSIS⟩) ∨
    (o.emdash = true ∧ ∃ i, i ∈ scanLit ['-', '-'] t ∧
        r = ⟨.preferEmdash, b + i, b + i + 2, EMDASH⟩) ∨
    (o.endash = true ∧ ∃ i, i ∈ scanLit [' ', '-', ' '] t ∧
        r = ⟨.preferEndash, b + i, b + i + 3, ENDASH⟩) ∨
    (o.quotes = true ∧ ∃ n pos, (scanLit ['"'] t)[n]? = some pos ∧
        r = ⟨.preferQuotes, b + pos, b + pos + 1,
          if n % 2 == 0 then LEFT_DOUBLE else RIGHT_DOUBLE⟩) ∨
    (∃ pos, pos ∈ scanLit ['\''] t ∧ singleQuoteReplacement t b o pos = some r) ∨
    (∃ idx, idx ∈ scanDQ t 0 ∧ r = dprimeAt (b + idx + 1)) := by
  simp only [findReplacementsCandidates] at h
  by_cases houter : (o.quotes || o.apostrophes || o.primes) = true
  · rw [if_pos houter] at h
    have hpre : r ∈
        ((((if o.ellipsis = true then
            (scanLit ['.', '.', '.'] t).map fun i =>
              ⟨MessageIds.preferEllipsis, b + i, b + i + 3, ELLIPSIS⟩
          else []) ++
          (if o.emdash = true then
            (scanLit ['-', '-'] t).map fun i =>
              ⟨MessageIds.preferEmdash, b + i, b + i + 2, EMDASH⟩
          else [])) ++
          (if o.endash = true then
            (scanLit [' ', '-', ' '] t).map fun i =>
              ⟨MessageIds.preferEndash, b + i, b + i + 3, ENDASH⟩
          else [])) ++
          (if o.quotes = true then doubleQuoteReplacements t b else [])) ++
          (scanLit ['\''] t).filterMap (singleQuoteReplacement t b o) ∨
        (∃ idx, idx ∈ scanDQ t 0 ∧ r = dprimeAt (b + idx + 1)) := by
      by_cases hp : o.primes = true
      · rw [if_pos hp] at h
        rcases mem_foldDP _ _ h with h' | h'
        · exact Or.inl h'
        · obtain ⟨idx, hidx, hr⟩ := h'
          exact Or.inr ⟨idx, hidx, hr⟩
      · rw [if_neg hp] at h
        exact Or.inl h
    rcases hpre with hpre | hdp
    · rcases List.mem_append.mp hpre with hL | hSQ
      · rcases List.mem_append.mp hL with hD | hQ
        · rcases List.mem_append.mp hD with hEM | hN
          · rcases List.mem_append.mp hEM with hE | hM
            · obtain ⟨hc, hmem⟩ := mem_ite_nil hE
              rcases List.mem_map.mp hmem with ⟨i, hi, rfl⟩
              exact Or.inl ⟨hc, i, hi, rfl⟩
            · obtain ⟨hc, hmem⟩ := mem_ite_nil hM
              rcases List.mem_map.mp hmem with ⟨i, hi, rfl⟩
              exact Or.inr (Or.inl ⟨hc, i, hi, rfl⟩)
          · obtain ⟨hc, hmem⟩ := mem_ite_nil hN
            rcases List.mem_map.mp hmem with ⟨i, hi, rfl⟩
            exact Or.inr (Or.inr (Or.inl ⟨hc, i, hi, rfl⟩))
        · obtain ⟨hc, hmem⟩ := mem_ite_nil hQ
          obtain ⟨n, pos, hnp, hr⟩ := mem_doubleQuoteReplacements hmem
          exact Or.inr (Or.inr (Or.inr (Or.inl ⟨hc, n, pos, hnp, hr⟩)))
      · rcases List.mem_filterMap.mp hSQ with ⟨pos, hpos, hsq⟩
        exact Or.inr (Or.inr (Or.inr (Or.inr (Or.inl ⟨pos, hpos, hsq⟩))))
    · exact Or.inr (Or.inr (Or.inr (Or.inr (Or.inr hdp))))
  · rw [if_neg houter] at h
    rcases List.mem_append.mp h with hEM | hN
    · rcases List.mem_append.mp hEM with hE | hM
      · obtain ⟨hc, hmem⟩ := mem_ite_nil hE
        rcases List.mem_map.mp hmem with ⟨i, hi, rfl⟩
        exact Or.inl ⟨hc, i, hi, rfl⟩
      · obtain ⟨hc, hmem⟩ := mem_ite_nil hM
        rcases List.mem_map.mp hmem with ⟨i, hi, rfl⟩
        exact Or.inr (Or.inl ⟨hc, i, hi, rfl⟩)
    · obtain ⟨hc, hmem⟩ := mem_ite_nil hN
      rcases List.mem_map.mp hmem with ⟨i, hi, rfl⟩
      exact Or.inr (Or.inr (Or.inl ⟨hc, i, hi, rfl⟩))

theorem candidates_startLt {t : List Char} {b : Nat} {o : RuleOptions} :
    ∀ r ∈ findReplacementsCandidates t b o, r.start < r.«end» := by
  intro r h
  rcases mem_candidates_cases h with h' | h' | h' | h' | h' | h'
  · obtain ⟨_, i, _, rfl⟩ := h'; simp
  · obtain ⟨_, i, _, rfl⟩ := h'; simp
  · obtain ⟨_, i, _, rfl⟩ := h'; simp
  · obtain ⟨_, n, pos, _, rfl⟩ := h'; simp
  · obtain ⟨pos, _, hsq⟩ := h'
    obtain ⟨h1, h2, _⟩ := singleQuoteReplacement_some hsq
    omega
  · obtain ⟨idx, _, rfl⟩ := h'; simp [dprimeAt]

theorem filterOverlapping_subset :
    ∀ (l : List Replacement) (e : Int) (r : Replacement), r ∈ filterOverlapping l e → r ∈ l
  | [], _, r => by simp [filterOverlapping]
  | x :: xs, e, r => by
    intro h
    simp only [filterOverlapping] at h
    by_cases hc : (x.start : Int) ≥ e
    · rw [if_pos hc] at h
      rcases List.mem_cons.mp h with rfl | h'
      · exact List.mem_cons_self _ _
      · exact List.mem_cons_of_mem _ (filterOverlapping_subset xs _ r h')
    · rw [if_neg hc] at h
      exact List.mem_cons_of_mem _ (filterOverlapping_subset xs e r h)

theorem filterOverlapping_spec :
    ∀ (l : List Replacement) (e : Int), (∀ r ∈ l, r.start < r.«end») →
      (∀ r ∈ filterOverlapping l e, e ≤ (r.start : Int)) ∧
      List.Pairwise (fun a c => a.«end» ≤ c.start) (filterOverlapping l e)
  | [], e, _ => by simp [filterOverlapping]
  | x :: xs, e, hlt => by
    have hltx := hlt x (List.mem_cons_self _ _)
    have hlt' : ∀ r ∈ xs, r.start < r.«end» := fun r hr => hlt r (List.mem_cons_of_mem _ hr)
    simp only [filterOverlapping]
    by_cases hc : (x.start : Int) ≥ e
    · rw [if_pos hc]
      obtain ⟨hlb, hpw⟩ := filterOverlapping_spec xs (x.«end» : Int) hlt'
      constructor
      · intro r hr
        rcases List.mem_cons.mp hr with rfl | hr'
        · exact hc
        · have h1 := hlb r hr'
          omega
      · refine List.pairwise_cons.mpr ⟨?_, hpw⟩
        intro r hr
        have h1 := hlb r hr
        exact_mod_cast h1
    · rw [if_neg hc]
      exact filterOverlapping_spec xs e hlt'

theorem sortByStart_mem {l : List Replacement} {r : Replacement} :
    r ∈ sortByStart l ↔ r ∈ l :=
  (List.perm_insertionSort _ l).mem_iff

end PreferUnicode

namespace PreferUnicode

theorem bool_or_or_self (a x : Bool) : ((a || x) || a) = (a || x) := by
  cases a <;> cases x <;> rfl

theorem prevCharOf_isNone {t : List Char} {pos : Nat} (h : pos < t.length) :
    (prevCharOf t pos).isNone = (pos == 0) := by
  by_cases h0 : pos = 0
  · subst h0; simp [prevCharOf]
  · have hlt : pos - 1 < t.length := by omega
    rw [prevCharOf, if_pos (Nat.pos_of_ne_zero h0), List.getElem?_eq_getElem hlt]
    simp [h0]

theorem prevCharOf_beq_none {t : List Char} {pos : Nat} (h : pos < t.length) :
    (prevCharOf t pos == none) = (pos == 0) := by
  rw [← prevCharOf_isNone h]
  cases prevCharOf t pos <;> rfl

theorem singleQuoteReplacement_classify (t : List Char) (b pos : Nat) (o : RuleOptions)
    (h : t[pos]? = some '\'') :
    singleQuoteReplacement t b o pos =
      (match claimClassify (prevCharOf t pos) (nextCharOf t pos) with
        | .apostrophe =>
            if o.apostrophes = true then some (editForKind .apostrophe b pos) else none
        | .yearAbbrev =>
            if o.apostrophes = true then some (editForKind .yearAbbrev b pos) else none
        | .prime => if o.primes = true then some (editForKind .prime b pos) else none
        | .quote op =>
            if o.quotes = true then some (editForKind (.quote op) b pos) else none) := by
  have hlt : pos < t.length := (List.getElem?_eq_some_iff.mp h).1
  have hiso := prevCharOf_isNone hlt
  have hbeq := prevCharOf_beq_none hlt
  simp only [singleQuoteReplacement, claimClassify, hiso, hbeq, bool_or_or_self]
  by_cases hA :
      (testOpt isWordChar (prevCharOf t pos) && testOpt isWordChar (nextCharOf t pos)) = true
  · simp [hA, editForKind]
  · by_cases hY : ((testOpt isJsWhitespace (prevCharOf t pos) || pos == 0) &&
        testOpt Char.isDigit (nextCharOf t pos)) = true
    · simp [hA, hY, editForKind]
    · by_cases hP : testOpt Char.isDigit (prevCharOf t pos) = true
      · simp [hA, hY, hP, editForKind]
      · simp [hA, hY, hP, editForKind]

theorem beq_add_left (b x y : Nat) : (b + x == b + y) = (x == y) := by
  by_cases h : x = y
  · subst h; simp
  · rw [beq_eq_false_iff_ne.mpr (by omega), beq_eq_false_iff_ne.mpr h]

theorem countP_enumFrom_snd (g : Nat → Bool) :
    ∀ (l : List Nat) (n : Nat),
      (List.enumFrom n l).countP (fun pr => g pr.2) = l.countP g
  | [], _ => rfl
  | x :: xs, n => by
    simp [List.enumFrom, List.countP_cons, countP_enumFrom_snd g xs (n + 1)]

theorem countP_doubleQuoteReplacements {t : List Char} {b p : Nat}
    (hp : t[p]? = some '"') :
    (doubleQuoteReplacements t b).countP (qAt (b + p)) = 1 := by
  unfold doubleQuoteReplacements
  rw [List.countP_map]
  have hcongr : ∀ pr ∈ (scanLit ['"'] t).enum,
      (((qAt (b + p)) ∘ fun q =>
        (⟨.preferQuotes, b + q.2, b + q.2 + 1,
          if q.1 % 2 == 0 then LEFT_DOUBLE else RIGHT_DOUBLE⟩ : Replacement)) pr = true ↔
      ((fun x => x == p) pr.2) = true) := by
    intro pr _
    simp only [Function.comp, qAt, beq_add_left]
    simp
  rw [List.countP_congr hcongr]
  have henum : (scanLit ['"'] t).enum.countP (fun pr => (fun x => x == p) pr.2) =
      (scanLit ['"'] t).countP (fun x => x == p) := by
    rw [List.enum]
    exact countP_enumFrom_snd (fun x => x == p) (scanLit ['"'] t) 0
  rw [henum]
  have hmem : p ∈ scanLit ['"'] t := scanLit_mem_one.mpr hp
  have hnd : (scanLit ['"'] t).Nodup :=
    (scanLit_pairwise (by simp) t).nodup
  have := List.count_eq_one_of_mem hnd hmem
  simpa [List.count] using this

end PreferUnicode

namespace PreferUnicode

theorem candidates_doublePrime {t : List Char} {b : Nat} {o : RuleOptions}
    (hq : o.quotes = true) (hp : o.primes = true)
    {dpos : Nat} {d : Char} (hd : t[dpos]? = some d) (hdig : d.isDigit = true)
    (hquo : t[dpos + 1]? = some '"') :
    dprimeAt (b + dpos + 1) ∈ findReplacementsCandidates t b o ∧
      ∀ r ∈ findReplacementsCandidates t b o,
        ¬(r.messageId = .preferQuotes ∧ r.start = b + dpos + 1) := by
  have houter : (o.quotes || o.apostrophes || o.primes) = true := by simp [hq]
  have hcand : findReplacementsCandidates t b o =
      (scanDQ t 0).foldl (fun rs idx => replaceQuoteAt (b + idx + 1) rs)
        ((if o.ellipsis = true then
            (scanLit ['.', '.', '.'] t).map fun i =>
              (⟨MessageIds.preferEllipsis, b + i, b + i + 3, ELLIPSIS⟩ : Replacement)
          else []) ++
          (if o.emdash = true then
            (scanLit ['-', '-'] t).map fun i =>
              (⟨MessageIds.preferEmdash, b + i, b + i + 2, EMDASH⟩ : Replacement)
          else []) ++
          (if o.endash = true then
            (scanLit [' ', '-', ' '] t).map fun i =>
              (⟨MessageIds.preferEndash, b + i, b + i + 3, ENDASH⟩ : Replacement)
          else []) ++
          (if o.quotes = true then doubleQuoteReplacements t b else []) ++
          (scanLit ['\''] t).filterMap (singleQuoteReplacement t b o)) := by
    simp only [findReplacementsCandidates]
    rw [if_pos houter, if_pos hp]
  have hE0 : ((if o.ellipsis = true then
      (scanLit ['.', '.', '.'] t).map fun i =>
        (⟨MessageIds.preferEllipsis, b + i, b + i + 3, ELLIPSIS⟩ : Replacement)
      else [])).countP (qAt (b + dpos + 1)) = 0 := by
    rw [List.countP_eq_zero]
    intro r hr
    obtain ⟨_, hmem⟩ := mem_ite_nil hr
    rcases List.mem_map.mp hmem with ⟨i, _, rfl⟩
    simp [qAt]
  have hM0 : ((if o.emdash = true then
      (scanLit ['-', '-'] t).map fun i =>
        (⟨MessageIds.preferEmdash, b + i, b + i + 2, EMDASH⟩ : Replacement)
      else [])).countP (qAt (b + dpos + 1)) = 0 := by
    rw [List.countP_eq_zero]
    intro r hr
    obtain ⟨_, hmem⟩ := mem_ite_nil hr
    rcases List.mem_map.mp hmem with ⟨i, _, rfl⟩
    simp [qAt]
  have hN0 : ((if o.endash = true then
      (scanLit [' ', '-', ' '] t).map fun i =>
        (⟨MessageIds.preferEndash, b + i, b + i + 3, ENDASH⟩ : Replacement)
      else [])).countP (qAt (b + dpos + 1)) = 0 := by
    rw [List.countP_eq_zero]
    intro r hr
    obtain ⟨_, hmem⟩ := mem_ite_nil hr
    rcases List.mem_map.mp hmem with ⟨i, _, rfl⟩
    simp [qAt]
  have hDQ1 : ((if o.quotes = true then doubleQuoteReplacements t b else [])).countP
      (qAt (b + dpos + 1)) = 1 := by
    rw [if_pos hq]
    have hres := countP_doubleQuoteReplacements (t := t) (b := b) (p := dpos + 1) hquo
    rw [show b + dpos + 1 = b + (dpos + 1) from by omega]
    exact hres
  have hSQ0 : ((scanLit ['\''] t).filterMap (singleQuoteReplacement t b o)).countP
      (qAt (b + dpos + 1)) = 0 := by
    rw [List.countP_eq_zero]
    intro r hr
    rcases List.mem_filterMap.mp hr with ⟨pos, hpos, hsq⟩
    have h1 := (singleQuoteReplacement_some hsq).1
    have h2 : t[pos]? = some '\'' := scanLit_mem_one.mp hpos
    intro hqat
    simp only [qAt, Bool.and_eq_true, beq_iff_eq] at hqat
    have hpe : pos = dpos + 1 := by omega
    subst hpe
    rw [hquo] at h2
    exact absurd h2 (by decide)
  have hbase : ((if o.ellipsis = true then
      (scanLit ['.', '.', '.'] t).map fun i =>
        (⟨MessageIds.preferEllipsis, b + i, b + i + 3, ELLIPSIS⟩ : Replacement)
      else []) ++
      (if o.emdash = true then
        (scanLit ['-', '-'] t).map fun i =>
          (⟨MessageIds.preferEmdash, b + i, b + i + 2, EMDASH⟩ : Replacement)
      else []) ++
      (if o.endash = true then
        (scanLit [' ', '-', ' '] t).map fun i =>
          (⟨MessageIds.preferEndash, b + i, b + i + 3, ENDASH⟩ : Replacement)
      else []) ++
      (if o.quotes = true then doubleQuoteReplacements t b else []) ++
      (scanLit ['\''] t).filterMap (singleQuoteReplacement t b o)).countP
        (qAt (b + dpos + 1)) = 1 := by
    rw [List.countP_append, List.countP_append, List.countP_append, List.countP_append]
    rw [hE0, hM0, hN0, hDQ1, hSQ0]
  have hdposmem : dpos ∈ scanDQ t 0 := by
    apply scanDQ_complete t 0 dpos (Nat.zero_le _)
    · exact ⟨d, by simpa using hd, hdig⟩
    · simpa using hquo
  obtain ⟨hzero, hmem⟩ := foldDP_hit hdposmem (scanDQ_pairwise t 0).2 hbase
  rw [hcand]
  refine ⟨hmem, ?_⟩
  intro r hr hcontra
  have hfalse := List.countP_eq_zero.mp hzero r hr
  apply hfalse
  simp [qAt, hcontra.1, hcontra.2]

theorem candidates_start_ne_of_noQuotes {t : List Char} {b : Nat} {o : RuleOptions}
    (hq : o.quotes = false) {p : Nat} (hp : t[p]? = some '"') :
    ∀ r ∈ findReplacementsCandidates t b o, r.start ≠ b + p := by
  have hpre : ∀ r ∈
      ((if o.ellipsis = true then
          (scanLit ['.', '.', '.'] t).map fun i =>
            (⟨MessageIds.preferEllipsis, b + i, b + i + 3, ELLIPSIS⟩ : Replacement)
        else []) ++
        (if o.emdash = true then
          (scanLit ['-', '-'] t).map fun i =>
            (⟨MessageIds.preferEmdash, b + i, b + i + 2, EMDASH⟩ : Replacement)
        else []) ++
        (if o.endash = true then
          (scanLit [' ', '-', ' '] t).map fun i =>
            (⟨MessageIds.preferEndash, b + i, b + i + 3, ENDASH⟩ : Replacement)
        else []) ++
        (if o.quotes = true then doubleQuoteReplacements t b else []) ++
        (scanLit ['\''] t).filterMap (singleQuoteReplacement t b o)),
      r.start ≠ b + p := by
    intro r hr
    rcases List.mem_append.mp hr with hL | hSQ
    · rcases List.mem_append.mp hL with hD | hQ
      · rcases List.mem_append.mp hD with hEM | hN
        · rcases List.mem_append.mp hEM with hE | hM
          · obtain ⟨_, hmem⟩ := mem_ite_nil hE
            rcases List.mem_map.mp hmem with ⟨i, hi, rfl⟩
            have h1 := (scanLit_mem_getElem3 hi).1
            intro he
            have he' : b + i = b + p := he
            have hip : i = p := by omega
            subst hip
            rw [hp] at h1
            exact absurd h1 (by decide)
          · obtain ⟨_, hmem⟩ := mem_ite_nil hM
            rcases List.mem_map.mp hmem with ⟨i, hi, rfl⟩
            have h1 := (scanLit_mem_getElem2 hi).1
            intro he
            have he' : b + i = b + p := he
            have hip : i = p := by omega
            subst hip
            rw [hp] at h1
            exact absurd h1 (by decide)
        · obtain ⟨_, hmem⟩ := mem_ite_nil hN
          rcases List.mem_map.mp hmem with ⟨i, hi, rfl⟩
          have h1 := (scanLit_mem_getElem3 hi).1
          intro he
          have he' : b + i = b + p := he
          have hip : i = p := by omega
          subst hip
          rw [hp] at h1
          exact absurd h1 (by decide)
      · obtain ⟨hc, _⟩ := mem_ite_nil hQ
        rw [hq] at hc
        exact absurd hc (by simp)
    · rcases List.mem_filterMap.mp hSQ with ⟨pos, hpos, hsq⟩
      have h1 := (singleQuoteReplacement_some hsq).1
      have h2 : t[pos]? = some '\'' := scanLit_mem_one.mp hpos
      intro he
      have hip : pos = p := by omega
      subst hip
      rw [hp] at h2
      exact absurd h2 (by decide)
  intro r hr
  simp only [findReplacementsCandidates] at hr
  by_cases houter : (o.quotes || o.apostrophes || o.primes) = true
  · rw [if_pos houter] at hr
    by_cases hpr : o.primes = true
    · rw [if_pos hpr] at hr
      exact foldDP_start_ne _ _ hpre r hr
    · rw [if_neg hpr] at hr
      exact hpre r hr
  · rw [if_neg houter] at hr
    apply hpre r
    exact List.mem_append_left _ (List.mem_append_left _ hr)

end PreferUnicode

namespace PreferUnicode

theorem emdash_mem_candidates {t : List Char} {b : Nat} {o : RuleOptions}
    (he : o.emdash = true) {i : Nat} (hi : i ∈ scanLit ['-', '-'] t) :
    (⟨.preferEmdash, b + i, b + i + 2, EMDASH⟩ : Replacement) ∈
      findReplacementsCandidates t b o := by
  have hmem0 : (⟨.preferEmdash, b + i, b + i + 2, EMDASH⟩ : Replacement) ∈
      (if o.emdash = true then
        (scanLit ['-', '-'] t).map fun j =>
          (⟨MessageIds.preferEmdash, b + j, b + j + 2, EMDASH⟩ : Replacement)
      else []) := by
    rw [if_pos he]
    exact List.mem_map_of_mem _ hi
  simp only [findReplacementsCandidates]
  by_cases houter : (o.quotes || o.apostrophes || o.primes) = true
  · rw [if_pos houter]
    have hW : (⟨.preferEmdash, b + i, b + i + 2, EMDASH⟩ : Replacement) ∈
        ((if o.ellipsis = true then
            (scanLit ['.', '.', '.'] t).map fun j =>
              (⟨MessageIds.preferEllipsis, b + j, b + j + 3, ELLIPSIS⟩ : Replacement)
          else []) ++
          (if o.emdash = true then
            (scanLit ['-', '-'] t).map fun j =>
              (⟨MessageIds.preferEmdash, b + j, b + j + 2, EMDASH⟩ : Replacement)
          else []) ++
          (if o.endash = true then
            (scanLit [' ', '-', ' '] t).map fun j =>
              (⟨MessageIds.preferEndash, b + j, b + j + 3, ENDASH⟩ : Replacement)
          else []) ++
          (if o.quotes = true then doubleQuoteReplacements t b else []) ++
          (scanLit ['\''] t).filterMap (singleQuoteReplacement t b o)) :=
      List.mem_append_left _ (List.mem_append_left _ (List.mem_append_left _
        (List.mem_append_right _ hmem0)))
    by_cases hp : o.primes = true
    · rw [if_pos hp]
      exact foldDP_mem (by rfl) _ _ hW
    · rw [if_neg hp]
      exact hW
  · rw [if_neg houter]
    exact List.mem_append_left _ (List.mem_append_right _ hmem0)

theorem endash_mem_candidates {t : List Char} {b : Nat} {o : RuleOptions}
    (he : o.endash = true) {i : Nat} (hi : i ∈ scanLit [' ', '-', ' '] t) :
    (⟨.preferEndash, b + i, b + i + 3, ENDASH⟩ : Replacement) ∈
      findReplacementsCandidates t b o := by
  have hmem0 : (⟨.preferEndash, b + i, b + i + 3, ENDASH⟩ : Replacement) ∈
      (if o.endash = true then
        (scanLit [' ', '-', ' '] t).map fun j =>
          (⟨MessageIds.preferEndash, b + j, b + j + 3, ENDASH⟩ : Replacement)
      else []) := by
    rw [if_pos he]
    exact List.mem_map_of_mem _ hi
  simp only [findReplacementsCandidates]
  by_cases houter : (o.quotes || o.apostrophes || o.primes) = true
  · rw [if_pos houter]
    have hW : (⟨.preferEndash, b + i, b + i + 3, ENDASH⟩ : Replacement) ∈
        ((if o.ellipsis = true then
            (scanLit ['.', '.', '.'] t).map fun j =>
              (⟨MessageIds.preferEllipsis, b + j, b + j + 3, ELLIPSIS⟩ : Replacement)
          else []) ++
          (if o.emdash = true then
            (scanLit ['-', '-'] t).map fun j =>
              (⟨MessageIds.preferEmdash, b + j, b + j + 2, EMDASH⟩ : Replacement)
          else []) ++
          (if o.endash = true then
            (scanLit [' ', '-', ' '] t).map fun j =>
              (⟨MessageIds.preferEndash, b + j, b + j + 3, ENDASH⟩ : Replacement)
          else []) ++
          (if o.quotes = true then doubleQuoteReplacements t b else []) ++
          (scanLit ['\''] t).filterMap (singleQuoteReplacement t b o)) :=
      List.mem_append_left _ (List.mem_append_left _
        (List.mem_append_right _ hmem0))
    by_cases hp : o.primes = true
    · rw [if_pos hp]
      exact foldDP_mem (by rfl) _ _ hW
    · rw [if_neg hp]
      exact hW
  · rw [if_neg houter]
    exact List.mem_append_right _ hmem0

theorem scanLit_eq_nil {pat t : List Char}
    (h : ∀ j, ¬ startsWith pat (t.drop j) = true) : scanLit pat t = [] := by
  rw [List.eq_nil_iff_forall_not_mem]
  intro j hj
  exact h j (scanLit_sound hj)

end PreferUnicode

namespace PreferUnicode

/-- C1: for every input text, base offset and configuration, `findReplacements` is the
result of sorting all candidates ascending by start offset followed by a single
left-to-right sweep that keeps a candidate only if its start is at least the end of
the last kept candidate; consequently every returned edit has `start < end` and the
returned edits are pairwise non-overlapping (consecutively, `end_i ≤ start_{i+1}`),
with overlapping later candidates silently discarded. -/
theorem claim_C1 (t : List Char) (b : Nat) (o : RuleOptions) :
    findReplacements t b o =
      filterOverlapping (sortByStart (findReplacementsCandidates t b o)) (-1) ∧
    (∀ r ∈ findReplacements t b o, r.start < r.«end») ∧
    List.Pairwise (fun a c => a.«end» ≤ c.start) (findReplacements t b o) := by
  have hlt : ∀ r ∈ sortByStart (findReplacementsCandidates t b o), r.start < r.«end» := by
    intro r hr
    exact candidates_startLt r (sortByStart_mem.mp hr)
  refine ⟨rfl, ?_, ?_⟩
  · intro r hr
    exact hlt r (filterOverlapping_subset _ _ r hr)
  · exact (filterOverlapping_spec _ _ hlt).2

/-- Witness for C1: the start-before-end invariant evaluated on a concrete run. -/
theorem claim_C1_witness :
    (⟨MessageIds.preferApostrophe, 3, 4, RIGHT_SINGLE⟩ : Replacement).start <
      (⟨MessageIds.preferApostrophe, 3, 4, RIGHT_SINGLE⟩ : Replacement).«end» :=
  (claim_C1 ['d', 'o', 'n', '\'', 't'] 0 allOn).2.1
    ⟨MessageIds.preferApostrophe, 3, 4, RIGHT_SINGLE⟩ (by decide)

/-- C2: a single quote is classified from its two neighbors only (missing neighbor is
the boundary), with first-match-wins priority: word-word is an apostrophe, whitespace
or string-start before a digit is a year-abbreviation apostrophe, after a digit a
prime, otherwise a quote that opens iff the previous character is boundary,
whitespace or one of `(` `[` `{`; and the four concrete examples: `don't` yields an
apostrophe edit, `back in '85` an apostrophe edit, `5' tall` a prime edit, and
`'quoted'` opening and closing quote edits. -/
theorem claim_C2 :
    (∀ (t : List Char) (b i : Nat), t[i]? = some '\'' →
      singleQuoteReplacement t b allOn i =
        some (editForKind (claimClassify (prevCharOf t i) (nextCharOf t i)) b i)) ∧
    findReplacements ['d', 'o', 'n', '\'', 't'] 0 allOn =
      [⟨.preferApostrophe, 3, 4, RIGHT_SINGLE⟩] ∧
    findReplacements ['b', 'a', 'c', 'k', ' ', 'i', 'n', ' ', '\'', '8', '5'] 0 allOn =
      [⟨.preferApostrophe, 8, 9, RIGHT_SINGLE⟩] ∧
    findReplacements ['5', '\'', ' ', 't', 'a', 'l', 'l'] 0 allOn =
      [⟨.preferPrime, 1, 2, PRIME⟩] ∧
    findReplacements ['\'', 'q', 'u', 'o', 't', 'e', 'd', '\''] 0 allOn =
      [⟨.preferQuotes, 0, 1, LEFT_SINGLE⟩, ⟨.preferQuotes, 7, 8, RIGHT_SINGLE⟩] := by
  refine ⟨?_, by decide, by decide, by decide, by decide⟩
  intro t b i h
  rw [singleQuoteReplacement_classify t b i allOn h]
  cases claimClassify (prevCharOf t i) (nextCharOf t i) <;> rfl

/-- Witness for C2: the classification correspondence instantiated at `don't`. -/
theorem claim_C2_witness :
    singleQuoteReplacement ['d', 'o', 'n', '\'', 't'] 0 allOn 3 =
      some (editForKind (claimClassify (prevCharOf ['d', 'o', 'n', '\'', 't'] 3)
        (nextCharOf ['d', 'o', 'n', '\'', 't'] 3)) 0 3) :=
  claim_C2.1 ['d', 'o', 'n', '\'', 't'] 0 3 (by decide)

/-- C3: a single-quote occurrence whose kind is disabled is still classified and then
suppressed rather than falling through: a disabled prime, apostrophe or
year-abbreviation occurrence produces no edit at all (in particular it is not treated
as a quote), and a plain-quote occurrence with quotes disabled is skipped entirely. -/
theorem claim_C3 :
    (∀ (t : List Char) (b i : Nat) (o : RuleOptions), t[i]? = some '\'' →
      (claimClassify (prevCharOf t i) (nextCharOf t i) = .prime → o.primes = false →
        singleQuoteReplacement t b o i = none) ∧
      (claimClassify (prevCharOf t i) (nextCharOf t i) = .apostrophe → o.apostrophes = false →
        singleQuoteReplacement t b o i = none) ∧
      (claimClassify (prevCharOf t i) (nextCharOf t i) = .yearAbbrev → o.apostrophes = false →
        singleQuoteReplacement t b o i = none) ∧
      (∀ op, claimClassify (prevCharOf t i) (nextCharOf t i) = .quote op → o.quotes = false →
        singleQuoteReplacement t b o i = none)) ∧
    findReplacements ['5', '\'', ' ', 't', 'a', 'l', 'l'] 0 noPrimes = [] := by
  refine ⟨?_, by decide⟩
  intro t b i o h
  have hcl := singleQuoteReplacement_classify t b i o h
  refine ⟨?_, ?_, ?_, ?_⟩
  · intro hk hp
    rw [hcl, hk]
    simp [hp]
  · intro hk hp
    rw [hcl, hk]
    simp [hp]
  · intro hk hp
    rw [hcl, hk]
    simp [hp]
  · intro op hk hp
    rw [hcl, hk]
    simp [hp]

/-- Witness for C3: the suppressed prime at `5' tall` with primes disabled. -/
theorem claim_C3_witness :
    singleQuoteReplacement ['5', '\'', ' ', 't', 'a', 'l', 'l'] 0 noPrimes 1 = none :=
  (claim_C3.1 ['5', '\'', ' ', 't', 'a', 'l', 'l'] 0 1 noPrimes (by decide)).1
    (by decide) (by decide)

/-- C4: with quotes enabled the n-th double-quote occurrence of a span is emitted as
an opening double quote for odd n and a closing double quote for even n (1-based);
with primes also enabled, every double quote immediately preceded by a digit has its
parity-assigned quote candidate replaced in place by a double-prime edit, and in
particular `5' 6"` produces a double-prime edit for the `"`, not a quote edit. -/
theorem claim_C4 :
    (∀ (t : List Char) (j : Nat), j ∈ scanLit ['"'] t ↔ t[j]? = some '"') ∧
    (∀ (t : List Char) (b n pos : Nat), (scanLit ['"'] t)[n]? = some pos →
      (doubleQuoteReplacements t b)[n]? =
        some ⟨.preferQuotes, b + pos, b + pos + 1,
          if (n + 1) % 2 = 1 then LEFT_DOUBLE else RIGHT_DOUBLE⟩) ∧
    (∀ (t : List Char) (b : Nat) (o : RuleOptions), o.quotes = true → o.primes = true →
      ∀ (dpos : Nat) (d : Char), t[dpos]? = some d → d.isDigit = true →
        t[dpos + 1]? = some '"' →
        dprimeAt (b + dpos + 1) ∈ findReplacementsCandidates t b o ∧
        ∀ r ∈ findReplacementsCandidates t b o,
          ¬(r.messageId = .preferQuotes ∧ r.start = b + dpos + 1)) ∧
    findReplacements ['5', '\'', ' ', '6', '"'] 0 allOn =
      [⟨.preferPrime, 1, 2, PRIME⟩, ⟨.preferPrime, 4, 5, DOUBLE_PRIME⟩] := by
  refine ⟨?_, ?_, ?_, by decide⟩
  · intro t j
    exact scanLit_mem_one
  · intro t b n pos hnp
    unfold doubleQuoteReplacements
    rw [List.getElem?_map, List.getElem?_enum, hnp]
    simp only [Option.map_some']
    by_cases hn : n % 2 = 0
    · have h1 : (n % 2 == 0) = true := by simp [hn]
      have h2 : (n + 1) % 2 = 1 := by omega
      simp [h1, h2]
    · have h1 : (n % 2 == 0) = false := by simp [hn]
      have h2 : ¬((n + 1) % 2 = 1) := by omega
      simp [h1, h2]
  · intro t b o hq hp dpos d hd hdig hquo
    exact candidates_doublePrime hq hp hd hdig hquo

/-- Witness for C4: the double-prime override evaluated on `5' 6"`. -/
theorem claim_C4_witness :
    dprimeAt 4 ∈ findReplacementsCandidates ['5', '\'', ' ', '6', '"'] 0 allOn :=
  (claim_C4.2.2.1 ['5', '\'', ' ', '6', '"'] 0 allOn rfl rfl 3 '6' (by decide) (by decide)
    (by decide)).1

/-- C10: when the quotes toggle is disabled, a double quote immediately preceded by a
digit produces no edit at all even with primes enabled — the double-prime pass only
rewrites an already-emitted quote candidate at the same start offset, so no returned
edit starts at the position of a double-quote character. -/
theorem claim_C10 :
    (∀ (t : List Char) (b : Nat) (o : RuleOptions), o.quotes = false →
      ∀ p, t[p]? = some '"' →
        ∀ r ∈ findReplacements t b o, r.start ≠ b + p) ∧
    findReplacements ['5', '\'', ' ', '6', '"'] 0 noQuotes =
      [⟨.preferPrime, 1, 2, PRIME⟩] := by
  refine ⟨?_, by decide⟩
  intro t b o hq p hp r hr
  have h1 := filterOverlapping_subset _ _ r hr
  have h2 := sortByStart_mem.mp h1
  exact candidates_start_ne_of_noQuotes hq hp r h2

/-- Witness for C10: no edit of the quotes-disabled run on `5' 6"` starts at the
double quote. -/
theorem claim_C10_witness :
    (⟨MessageIds.preferPrime, 1, 2, PRIME⟩ : Replacement).start ≠ 0 + 4 :=
  claim_C10.1 ['5', '\'', ' ', '6', '"'] 0 noQuotes rfl 4 (by decide)
    ⟨MessageIds.preferPrime, 1, 2, PRIME⟩ (by decide)

end PreferUnicode

namespace PreferUnicode

/-- C5 as stated is false: on the run of three hyphens `---` (not a run of exactly
two hyphens) the scanner still emits an emdash edit over the first two hyphens,
because the global regex `--` matches inside longer hyphen runs. -/
theorem claim_C5_counterexample : ¬ emdashClaimC5 := by
  intro h
  have h0 := (h ['-', '-', '-'] 0 emdashOnly rfl 0).mp
    ⟨⟨.preferEmdash, 0, 2, EMDASH⟩, by decide, rfl, by decide⟩
  exact h0.2.2.1 (by decide)

/-- C5 amended: with emdash enabled, the emdash candidates are exactly the
non-overlapping left-to-right matches of two consecutive hyphens, each a length-2
edit replaced by the em dash; every match really sits on two hyphens; `a--b` yields
exactly one emdash edit and with the toggle disabled the same input yields none. -/
theorem claim_C5_amended :
    (∀ (t : List Char) (b : Nat) (o : RuleOptions) (r : Replacement),
      r ∈ findReplacementsCandidates t b o → r.messageId = .preferEmdash →
      ∃ i, i ∈ scanLit ['-', '-'] t ∧ r = ⟨.preferEmdash, b + i, b + i + 2, EMDASH⟩) ∧
    (∀ (t : List Char) (b : Nat) (o : RuleOptions), o.emdash = true →
      ∀ i, ((⟨.preferEmdash, b + i, b + i + 2, EMDASH⟩ : Replacement) ∈
        findReplacementsCandidates t b o ↔ i ∈ scanLit ['-', '-'] t)) ∧
    (∀ (t : List Char) (i : Nat), i ∈ scanLit ['-', '-'] t →
      t[i]? = some '-' ∧ t[i + 1]? = some '-') ∧
    findReplacements ['a', '-', '-', 'b'] 0 allOn = [⟨.preferEmdash, 1, 3, EMDASH⟩] ∧
    findReplacements ['a', '-', '-', 'b'] 0 noEmdash = [] := by
  have hforward : ∀ (t : List Char) (b : Nat) (o : RuleOptions) (r : Replacement),
      r ∈ findReplacementsCandidates t b o → r.messageId = .preferEmdash →
      ∃ i, i ∈ scanLit ['-', '-'] t ∧ r = ⟨.preferEmdash, b + i, b + i + 2, EMDASH⟩ := by
    intro t b o r hmem hmid
    rcases mem_candidates_cases hmem with h' | h' | h' | h' | h' | h'
    · obtain ⟨_, j, _, rfl⟩ := h'
      exact absurd hmid (by simp)
    · obtain ⟨_, j, hj, rfl⟩ := h'
      exact ⟨j, hj, rfl⟩
    · obtain ⟨_, j, _, rfl⟩ := h'
      exact absurd hmid (by simp)
    · obtain ⟨_, n, pos, _, rfl⟩ := h'
      exact absurd hmid (by simp)
    · obtain ⟨pos, _, hsq⟩ := h'
      rcases (singleQuoteReplacement_some hsq).2.2 with hm | hm | hm <;>
        (rw [hmid] at hm; exact absurd hm (by decide))
    · obtain ⟨idx, _, rfl⟩ := h'
      exact absurd hmid (by simp [dprimeAt])
  refine ⟨hforward, ?_, fun t i hi => scanLit_mem_getElem2 hi, by decide, by decide⟩
  intro t b o he i
  constructor
  · intro hmem
    obtain ⟨j, hj, heq⟩ := hforward t b o _ hmem rfl
    have hstart : b + i = b + j := by
      have := congrArg Replacement.start heq
      simpa using this
    have hij : i = j := by omega
    subst hij
    exact hj
  · intro hi
    exact emdash_mem_candidates he hi

/-- Witness for the amended C5: the emdash candidate of `a--b` corresponds to the
scan match at offset 1. -/
theorem claim_C5_amended_witness :
    (1 ∈ scanLit ['-', '-'] ['a', '-', '-', 'b'] ∧
      (⟨MessageIds.preferEmdash, 0 + 1, 0 + 1 + 2, EMDASH⟩ : Replacement) ∈
        findReplacementsCandidates ['a', '-', '-', 'b'] 0 allOn) :=
  ⟨by decide,
   (claim_C5_amended.2.1 ['a', '-', '-', 'b'] 0 allOn rfl 1).mpr (by decide)⟩

/-- C6 as stated is false: in `" - - "` the substring space-hyphen-space occurs both
at offset 0 and (overlapping) at offset 2, but the non-overlapping global regex scan
emits only the edit at offset 0, so the occurrence at offset 2 produces no edit. -/
theorem claim_C6_counterexample : ¬ endashClaimC6 := by
  intro h
  have h0 := (h [' ', '-', ' ', '-', ' '] 0 endashOnly rfl 2).mpr
    ⟨by decide, by decide, by decide⟩
  obtain ⟨r, hr, hreq⟩ := h0
  subst hreq
  revert hr
  decide

/-- C6 amended: with endash enabled, the endash candidates are exactly the
non-overlapping left-to-right matches of the literal space-hyphen-space, each a
3-character edit replaced by the en dash alone (consuming the surrounding spaces);
every match really sits on space-hyphen-space; `9am - 5pm` yields exactly that edit,
and the word-internal hyphen of `well-known` yields no edit. -/
theorem claim_C6_amended :
    (∀ (t : List Char) (b : Nat) (o : RuleOptions) (r : Replacement),
      r ∈ findReplacementsCandidates t b o → r.messageId = .preferEndash →
      ∃ i, i ∈ scanLit [' ', '-', ' '] t ∧ r = ⟨.preferEndash, b + i, b + i + 3, ENDASH⟩) ∧
    (∀ (t : List Char) (b : Nat) (o : RuleOptions), o.endash = true →
      ∀ i, ((⟨.preferEndash, b + i, b + i + 3, ENDASH⟩ : Replacement) ∈
        findReplacementsCandidates t b o ↔ i ∈ scanLit [' ', '-', ' '] t)) ∧
    (∀ (t : List Char) (i : Nat), i ∈ scanLit [' ', '-', ' '] t →
      t[i]? = some ' ' ∧ t[i + 1]? = some '-' ∧ t[i + 2]? = some ' ') ∧
    findReplacements ['9', 'a', 'm', ' ', '-', ' ', '5', 'p', 'm'] 0 allOn =
      [⟨.preferEndash, 3, 6, ENDASH⟩] ∧
    findReplacements ['w', 'e', 'l', 'l', '-', 'k', 'n', 'o', 'w', 'n'] 0 allOn = [] := by
  have hforward : ∀ (t : List Char) (b : Nat) (o : RuleOptions) (r : Replacement),
      r ∈ findReplacementsCandidates t b o → r.messageId = .preferEndash →
      ∃ i, i ∈ scanLit [' ', '-', ' '] t ∧ r = ⟨.preferEndash, b + i, b + i + 3, ENDASH⟩ := by
    intro t b o r hmem hmid
    rcases mem_candidates_cases hmem with h' | h' | h' | h' | h' | h'
    · obtain ⟨_, j, _, rfl⟩ := h'
      exact absurd hmid (by simp)
    · obtain ⟨_, j, _, rfl⟩ := h'
      exact absurd hmid (by simp)
    · obtain ⟨_, j, hj, rfl⟩ := h'
      exact ⟨j, hj, rfl⟩
    · obtain ⟨_, n, pos, _, rfl⟩ := h'
      exact absurd hmid (by simp)
    · obtain ⟨pos, _, hsq⟩ := h'
      rcases (singleQuoteReplacement_some hsq).2.2 with hm | hm | hm <;>
        (rw [hmid] at hm; exact absurd hm (by decide))
    · obtain ⟨idx, _, rfl⟩ := h'
      exact absurd hmid (by simp [dprimeAt])
  refine ⟨hforward, ?_, fun t i hi => scanLit_mem_getElem3 hi, by decide, by decide⟩
  intro t b o he i
  constructor
  · intro hmem
    obtain ⟨j, hj, heq⟩ := hforward t b o _ hmem rfl
    have hstart : b + i = b + j := by
      have := congrArg Replacement.start heq
      simpa using this
    have hij : i = j := by omega
    subst hij
    exact hj
  · intro hi
    exact endash_mem_candidates he hi

/-- Witness for the amended C6: the endash candidate of `9am - 5pm` corresponds to
the scan match at offset 3. -/
theorem claim_C6_amended_witness :
    (3 ∈ scanLit [' ', '-', ' '] ['9', 'a', 'm', ' ', '-', ' ', '5', 'p', 'm'] ∧
      (⟨MessageIds.preferEndash, 0 + 3, 0 + 3 + 3, ENDASH⟩ : Replacement) ∈
        findReplacementsCandidates ['9', 'a', 'm', ' ', '-', ' ', '5', 'p', 'm'] 0 allOn) :=
  ⟨by decide,
   (claim_C6_amended.2.1 ['9', 'a', 'm', ' ', '-', ' ', '5', 'p', 'm'] 0 allOn rfl 3).mpr
     (by decide)⟩

end PreferUnicode

namespace PreferUnicode

/-- C7 as stated is false on a degenerate callee: a member chain with no identifier
parts resolves to the empty string, which the claim's reading would match against an
allowlist containing `""`, but the code's JS truthiness test `calleeName && ...`
skips empty callee names, so the literal is not scanned. -/
theorem claim_C7_counterexample : ¬ stringLiteralClaimC7 := by
  intro h
  have h0 := (h [""] [.callExpression (.member .otherExpr none)]).mpr
    ⟨.member .otherExpr none, List.mem_cons_self _ _, "", by decide, by decide⟩
  exact absurd h0 (by decide)

/-- C7 amended: `Off` scans nothing and `On` everything; under `Restricted(fns)` a
string literal is scanned iff some enclosing call expression has a nonempty callee
name (plain identifier, or member-chain property names joined with `.`) contained in
`fns`; `i18n.t(...)` is in scope exactly when `fns` contains `"i18n.t"`; with
`onlyFunctions = ["t"]` the literal of `t("hello...")` yields one edit and that of
`console.log("hello...")` none. -/
theorem claim_C7_amended :
    (∀ anc : List AncestorNode, shouldCheckStringLiteral .off anc = false) ∧
    (∀ anc : List AncestorNode, shouldCheckStringLiteral .on anc = true) ∧
    (∀ (fns : List String) (anc : List AncestorNode),
      shouldCheckStringLiteral (.restricted fns) anc = true ↔
        ∃ cal, AncestorNode.callExpression cal ∈ anc ∧
          ∃ nm, getCalleeName cal = some nm ∧ nm ≠ "" ∧ nm ∈ fns) ∧
    (∀ fns : List String,
      shouldCheckStringLiteral (.restricted fns)
        [.callExpression (.member (.identifier "i18n") (some "t"))] = true ↔
        "i18n.t" ∈ fns) ∧
    processStringLiteral (.restricted ["t"]) [.callExpression (.identifier "t")]
      ['h', 'e', 'l', 'l', 'o', '.', '.', '.'] 0 allOn =
      [⟨.preferEllipsis, 6, 9, ELLIPSIS⟩] ∧
    processStringLiteral (.restricted ["t"])
      [.callExpression (.member (.identifier "console") (some "log"))]
      ['h', 'e', 'l', 'l', 'o', '.', '.', '.'] 0 allOn = [] := by
  have hmain : ∀ (fns : List String) (anc : List AncestorNode),
      shouldCheckStringLiteral (.restricted fns) anc = true ↔
        ∃ cal, AncestorNode.callExpression cal ∈ anc ∧
          ∃ nm, getCalleeName cal = some nm ∧ nm ≠ "" ∧ nm ∈ fns := by
    intro fns anc
    show isInsideAllowedFunction anc fns = true ↔ _
    induction anc with
    | nil => simp [isInsideAllowedFunction]
    | cons a rest ih =>
      cases a with
      | otherNode =>
        rw [show isInsideAllowedFunction (.otherNode :: rest) fns =
          isInsideAllowedFunction rest fns from rfl, ih]
        constructor
        · rintro ⟨cal, hmem, hrest⟩
          exact ⟨cal, List.mem_cons_of_mem _ hmem, hrest⟩
        · rintro ⟨cal, hmem, hrest⟩
          rcases List.mem_cons.mp hmem with heq | hmem'
          · cases heq
          · exact ⟨cal, hmem', hrest⟩
      | callExpression cal0 =>
        rw [show isInsideAllowedFunction (.callExpression cal0 :: rest) fns =
          ((match getCalleeName cal0 with
            | some nm => !(nm == "") && fns.contains nm
            | none => false) ||
            isInsideAllowedFunction rest fns) from rfl]
        rw [Bool.or_eq_true, ih]
        constructor
        · rintro (hhead | htail)
          · cases hcal : getCalleeName cal0 with
            | none => rw [hcal] at hhead; simp at hhead
            | some nm =>
              rw [hcal] at hhead
              simp only [Bool.and_eq_true, Bool.not_eq_true'] at hhead
              refine ⟨cal0, List.mem_cons_self _ _, nm, hcal, ?_, ?_⟩
              · intro hne
                rw [hne] at hhead
                simpa using hhead.1
              · simpa using hhead.2
          · obtain ⟨cal, hmem, hrest⟩ := htail
            exact ⟨cal, List.mem_cons_of_mem _ hmem, hrest⟩
        · rintro ⟨cal, hmem, nm, hcal, hne, hnm⟩
          rcases List.mem_cons.mp hmem with heq | hmem'
          · injection heq with heq'
            subst heq'
            left
            rw [hcal]
            simp only [Bool.and_eq_true, Bool.not_eq_true']
            exact ⟨by simpa using hne, by simpa using hnm⟩
          · right
            exact ⟨cal, hmem', nm, hcal, hne, hnm⟩
  refine ⟨fun _ => rfl, fun _ => rfl, hmain, ?_, by decide, by decide⟩
  intro fns
  rw [hmain]
  constructor
  · rintro ⟨cal, hmem, nm, hcal, _, hnm⟩
    rcases List.mem_cons.mp hmem with heq | hmem'
    · injection heq with heq'
      subst heq'
      have : nm = "i18n.t" := by
        have := hcal.symm.trans (by decide :
          getCalleeName (.member (.identifier "i18n") (some "t")) = some "i18n.t")
        injection this
      rw [← this]
      exact hnm
    · simp at hmem'
  · intro hnm
    exact ⟨.member (.identifier "i18n") (some "t"), List.mem_cons_self _ _, "i18n.t",
      by decide, by decide, hnm⟩

/-- Witness for the amended C7: the gate instantiated at `t("hello...")`. -/
theorem claim_C7_amended_witness :
    shouldCheckStringLiteral (.restricted ["t"]) [.callExpression (.identifier "t")] = true :=
  (claim_C7_amended.2.2.1 ["t"] [.callExpression (.identifier "t")]).mpr
    ⟨.identifier "t", List.mem_cons_self _ _, "t", by decide, by decide, by decide⟩

/-- C8: template-literal scope gate: `Off` scans no template chunk and `On` all of
them; under `Restricted({tags, untagged})` a tagged template's chunk is scanned iff
the tag's dotted-resolved name is in `tags` (absent `tags` means never), a template
whose tag is not in `tags` is never scanned even when `untagged` is true, and an
untagged template's chunk is scanned iff the `untagged` flag is set (absent means
false). -/
theorem claim_C8 :
    (∀ ctx, shouldCheckTemplateLiteral .off ctx = false) ∧
    (∀ ctx, shouldCheckTemplateLiteral .on ctx = true) ∧
    (∀ (ts : List String) (u : Option Bool) (tag : JsExpr),
      shouldCheckTemplateLiteral (.restricted (some ts) u) (.taggedTemplate tag) = true ↔
        getTagName tag ∈ ts) ∧
    (∀ (u : Option Bool) (tag : JsExpr),
      shouldCheckTemplateLiteral (.restricted none u) (.taggedTemplate tag) = false) ∧
    (∀ (ts : List String) (u : Option Bool) (tag : JsExpr), getTagName tag ∉ ts →
      shouldCheckTemplateLiteral (.restricted (some ts) u) (.taggedTemplate tag) = false) ∧
    (∀ (tags : Option (List String)) (u : Option Bool),
      shouldCheckTemplateLiteral (.restricted tags u) .untaggedTemplate = u.getD false) := by
  refine ⟨fun ctx => rfl, fun ctx => rfl, ?_, fun u tag => rfl, ?_, fun tags u => rfl⟩
  · intro ts u tag
    show ts.contains (getTagName tag) = true ↔ _
    simp
  · intro ts u tag hnot
    show ts.contains (getTagName tag) = false
    simpa using hnot

/-- Witness for C8: a tag outside the allowlist is never scanned. -/
theorem claim_C8_witness :
    shouldCheckTemplateLiteral (.restricted (some []) (some true))
      (.taggedTemplate (.identifier "x")) = false :=
  claim_C8.2.2.2.2.1 [] (some true) (.identifier "x") (by decide)

/-- C9: idempotence — a text made only of the Unicode target characters and
containing none of the ASCII approximations (no three consecutive periods, no two
consecutive hyphens, no space-hyphen-space, no straight single or double quote)
yields an empty edit list for every base offset and configuration. -/
theorem claim_C9 (t : List Char)
    (_htargets : ∀ c ∈ t, c ∈ targetChars)
    (hdots : ∀ j < t.length,
      ¬(t[j]? = some '.' ∧ t[j + 1]? = some '.' ∧ t[j + 2]? = some '.'))
    (hhyph : ∀ j < t.length, ¬(t[j]? = some '-' ∧ t[j + 1]? = some '-'))
    (hspaced : ∀ j < t.length,
      ¬(t[j]? = some ' ' ∧ t[j + 1]? = some '-' ∧ t[j + 2]? = some ' '))
    (hsq : '\'' ∉ t) (hdq : '"' ∉ t) :
    ∀ (b : Nat) (o : RuleOptions), findReplacements t b o = [] := by
  intro b o
  have e1 : scanLit ['.', '.', '.'] t = [] := by
    apply scanLit_eq_nil
    intro j hc
    rw [startsWith_three] at hc
    simp only [List.getElem?_drop, Nat.add_zero] at hc
    by_cases hj : j < t.length
    · exact hdots j hj hc
    · have := hc.1
      rw [List.getElem?_eq_none (by omega)] at this
      exact absurd this (by simp)
  have e2 : scanLit ['-', '-'] t = [] := by
    apply scanLit_eq_nil
    intro j hc
    rw [startsWith_two] at hc
    simp only [List.getElem?_drop, Nat.add_zero] at hc
    by_cases hj : j < t.length
    · exact hhyph j hj hc
    · have := hc.1
      rw [List.getElem?_eq_none (by omega)] at this
      exact absurd this (by simp)
  have e3 : scanLit [' ', '-', ' '] t = [] := by
    apply scanLit_eq_nil
    intro j hc
    rw [startsWith_three] at hc
    simp only [List.getElem?_drop, Nat.add_zero] at hc
    by_cases hj : j < t.length
    · exact hspaced j hj hc
    · have := hc.1
      rw [List.getElem?_eq_none (by omega)] at this
      exact absurd this (by simp)
  have e4 : scanLit ['\''] t = [] := by
    rw [List.eq_nil_iff_forall_not_mem]
    intro j hj
    exact hsq (List.getElem?_mem (scanLit_mem_one.mp hj))
  have e5 : scanLit ['"'] t = [] := by
    rw [List.eq_nil_iff_forall_not_mem]
    intro j hj
    exact hdq (List.getElem?_mem (scanLit_mem_one.mp hj))
  have e6 : scanDQ t 0 = [] := by
    rw [List.eq_nil_iff_forall_not_mem]
    intro j hj
    obtain ⟨_, _, h2⟩ := scanDQ_sound t 0 j hj
    exact hdq (List.getElem?_mem (by simpa using h2))
  have hcand : findReplacementsCandidates t b o = [] := by
    simp [findReplacementsCandidates, doubleQuoteReplacements, e1, e2, e3, e4, e5, e6]
  show filterOverlapping (sortByStart (findReplacementsCandidates t b o)) (-1) = []
  rw [hcand]
  rfl

/-- Witness for C9: the already-converted text `…—` produces no edits. -/
theorem claim_C9_witness :
    findReplacements ['…', '—'] 5 allOn = [] :=
  claim_C9 ['…', '—'] (by decide) (by decide) (by decide) (by decide) (by decide)
    (by decide) 5 allOn

end PreferUnicode
